import Mathlib

/-!
Verification of the card-grid scanner in `docs/lebanese deal/analyze_cards.py`.

The script loads an RGBA image, samples the background color from the pixel
at (0,0), computes per-row and per-column fractions of pixels exactly matching
that color ("whiteness"), classifies a row/column as background when its
whiteness is strictly greater than 0.80, and extracts foreground runs via a
two-state scan.  A driver loop runs the scanner on four fixed category images
and records rows × cols per category.

Embedding conventions:
* an image is its width, height and a pixel function (indexed `pix y x`,
  mirroring `arr[y, x]` of the numpy array);
* whiteness fractions are exact rationals (the Python float division
  `matches / w` and the literal `0.80` are modelled by exact rational
  arithmetic; for image dimensions representable in practice the float and
  rational comparisons against the threshold agree);
* the out-of-bounds access `arr[0, 0, :3]` on a degenerate (zero-width or
  zero-height) image raises `IndexError` in the source; the embedding makes
  `find_card_rows` return `none` in exactly that case.
-/

/-- One RGBA pixel: red, green, blue, alpha channels. -/
structure Pixel where
  r : Nat
  g : Nat
  b : Nat
  a : Nat
deriving DecidableEq

/-- An image: width `w`, height `h`, and the pixel at row `y`, column `x`
(mirroring `arr[y, x]` after `np.array(img)`). -/
structure Image where
  w : Nat
  h : Nat
  pix : Nat → Nat → Pixel

/-- The RGB channels of a pixel (`[:3]` in the source: alpha dropped). -/
def rgbOf (p : Pixel) : Nat × Nat × Nat := (p.r, p.g, p.b)

/-- `bg_color = arr[0, 0, :3]`: the RGB channels of the pixel at (0,0). -/
def bg_color (img : Image) : Nat × Nat × Nat := rgbOf (img.pix 0 0)

/-- Whether the pixel at row `y`, column `x` matches the background sample
exactly (`np.all(row == bg_color, axis=1)`): component-wise equality of the
three RGB channels. -/
def matchesBg (img : Image) (y x : Nat) : Bool :=
  decide (rgbOf (img.pix y x) = bg_color img)

/-- Number of pixels of row `y` exactly matching `bg_color`
(`np.all(row == bg_color, axis=1).sum()`). -/
def rowMatches (img : Image) (y : Nat) : Nat :=
  (List.range img.w).countP (fun x => matchesBg img y x)

/-- Number of pixels of column `x` exactly matching `bg_color`. -/
def colMatches (img : Image) (x : Nat) : Nat :=
  (List.range img.h).countP (fun y => matchesBg img y x)

/-- `row_whiteness[y] = matches / w`. -/
def row_whiteness (img : Image) (y : Nat) : ℚ :=
  (rowMatches img y : ℚ) / (img.w : ℚ)

/-- `col_whiteness[x] = matches / h`. -/
def col_whiteness (img : Image) (x : Nat) : ℚ :=
  (colMatches img x : ℚ) / (img.h : ℚ)

/-- `is_bg = ws > 0.80` for row `y`. -/
def isBgRow (img : Image) (y : Nat) : Bool :=
  decide (row_whiteness img y > (0.80 : ℚ))

/-- `is_bg = cs > 0.80` for column `x`. -/
def isBgCol (img : Image) (x : Nat) : Bool :=
  decide (col_whiteness img x > (0.80 : ℚ))

/-- The background/foreground classification of each row, `y = 0, …, h-1`. -/
def rowCls (img : Image) : List Bool :=
  (List.range img.h).map (isBgRow img)

/-- The background/foreground classification of each column, `x = 0, …, w-1`. -/
def colCls (img : Image) : List Bool :=
  (List.range img.w).map (isBgCol img)

/-- The two-state transition scan of the source (lines 18–27): walk the
classifications starting at position `y` with previous state `prev`
(`prev_is_bg`, initially `True`); on a background→foreground transition record
the position in the first list (`card_row_starts.append(y)`), on a
foreground→background transition record it in the second
(`card_row_ends.append(y)`); then `prev_is_bg = is_bg`. -/
def scanAux (prev : Bool) (y : Nat) : List Bool → List Nat × List Nat
  | [] => ([], [])
  | isBg :: rest =>
    let se := scanAux isBg (y + 1) rest
    ((if prev && !isBg then y :: se.1 else se.1),
     (if !prev && isBg then y :: se.2 else se.2))

/-- `card_row_starts`: background→foreground transition positions of the rows. -/
def card_row_starts (img : Image) : List Nat :=
  (scanAux true 0 (rowCls img)).1

/-- `card_row_ends`: foreground→background transition positions of the rows. -/
def card_row_ends (img : Image) : List Nat :=
  (scanAux true 0 (rowCls img)).2

/-- The column scan of the source (lines 37–43): identical walk over the
column classifications, but only transitions into foreground are recorded
(`col_starts.append(x)`); no end positions are kept. -/
def colScanAux (prev : Bool) (x : Nat) : List Bool → List Nat
  | [] => []
  | isBg :: rest =>
    let s := colScanAux isBg (x + 1) rest
    if prev && !isBg then x :: s else s

/-- `col_starts`: background→foreground transition positions of the columns. -/
def col_starts (img : Image) : List Nat :=
  colScanAux true 0 (colCls img)

/-- `find_card_rows`, the scanner: on a successfully loaded image it returns
`(len(card_row_starts), len(col_starts))` (line 53).  On a degenerate image
(`w = 0` or `h = 0`) the source raises `IndexError` at `arr[0, 0, :3]`;
this is embedded as `none`. -/
def find_card_rows (img : Image) : Option (Nat × Nat) :=
  if 0 < img.w ∧ 0 < img.h then
    some ((card_row_starts img).length, (col_starts img).length)
  else
    none

/-- The fixed ordered category list of the driver loop (line 56). -/
def categories : List String := ["action", "money", "property", "wild"]

/-- The path the driver derives from a category name:
`f"/tmp/{name}_cards.png"`. -/
def pathFor (name : String) : String := "/tmp/" ++ name ++ "_cards.png"

/-- The driver loop (lines 55–59): for each category in order, run the scanner
on the image loaded from that category's path and record
`totals[name] = rows * cols`.  A scanner failure aborts the whole run
(the source does not catch exceptions), embedded as `none`. -/
def runDriver (env : String → Image) : Option (List (String × Nat)) :=
  categories.foldlM
    (fun acc name =>
      (find_card_rows (env (pathFor name))).map
        (fun rc => acc ++ [(name, rc.1 * rc.2)]))
    []

/-- A 2×2 image entirely of one uniform color. -/
def imgU : Image := ⟨2, 2, fun _ _ => ⟨255, 255, 255, 255⟩⟩

/-- A 2×2 image that agrees with `imgU` on every in-range pixel but differs
outside the visible area. -/
def imgUAlt : Image :=
  ⟨2, 2, fun y x => if y < 2 ∧ x < 2 then ⟨255, 255, 255, 255⟩ else ⟨0, 0, 0, 0⟩⟩

/-- A 1×3 image: white first row, black remaining rows. -/
def imgBand : Image :=
  ⟨1, 3, fun y _ => if y = 0 then ⟨255, 255, 255, 255⟩ else ⟨0, 0, 0, 255⟩⟩

/-- A single-pixel image (1×1). -/
def img1x1 : Image := ⟨1, 1, fun _ _ => ⟨7, 7, 7, 9⟩⟩

/-- A degenerate image of width 0. -/
def imgDeg : Image := ⟨0, 5, fun _ _ => ⟨0, 0, 0, 0⟩⟩

/-- A 2×2 image whose corner pixel color appears nowhere else. -/
def imgCorner : Image :=
  ⟨2, 2, fun y x =>
    if y = 0 ∧ x = 0 then ⟨255, 255, 255, 255⟩ else ⟨y, x, 0, 255⟩⟩

/-- The strict rational threshold test `m / w > 0.80` is the integer test
`4 * w < 5 * m` whenever `m ≤ w` (in particular the degenerate `w = 0` case,
where the rational quotient is `0/0 = 0`, agrees). -/
lemma div_gt_threshold_iff (m w : Nat) (hmw : m ≤ w) :
    ((m : ℚ) / (w : ℚ) > (0.80 : ℚ)) ↔ 4 * w < 5 * m := by
  rcases Nat.eq_zero_or_pos w with hw | hw
  · subst hw
    interval_cases m
    norm_num
  · have hwq : (0 : ℚ) < (w : ℚ) := by exact_mod_cast hw
    rw [gt_iff_lt, lt_div_iff₀ hwq]
    constructor
    · intro h
      have : (4 * w : ℚ) < 5 * m := by linarith
      exact_mod_cast this
    · intro h
      have : (4 * w : ℚ) < (5 * m : ℚ) := by exact_mod_cast h
      push_cast at this
      linarith

/-- Each row's match count is at most the width. -/
lemma rowMatches_le (img : Image) (y : Nat) : rowMatches img y ≤ img.w := by
  have h := List.countP_le_length (l := List.range img.w)
    (p := fun x => matchesBg img y x)
  simpa [rowMatches] using h

/-- Each column's match count is at most the height. -/
lemma colMatches_le (img : Image) (x : Nat) : colMatches img x ≤ img.h := by
  have h := List.countP_le_length (l := List.range img.h)
    (p := fun y => matchesBg img y x)
  simpa [colMatches] using h

/-- Integer form of the row classification (used to evaluate concrete
instances, since rational division does not reduce in the kernel). -/
lemma isBgRow_eval (img : Image) (y : Nat) :
    isBgRow img y = decide (4 * img.w < 5 * rowMatches img y) := by
  simp only [isBgRow, row_whiteness, decide_eq_decide]
  exact div_gt_threshold_iff _ _ (rowMatches_le img y)

/-- Integer form of the column classification. -/
lemma isBgCol_eval (img : Image) (x : Nat) :
    isBgCol img x = decide (4 * img.h < 5 * colMatches img x) := by
  simp only [isBgCol, col_whiteness, decide_eq_decide]
  exact div_gt_threshold_iff _ _ (colMatches_le img x)

/-- Integer form of the row classification list. -/
lemma rowCls_eval (img : Image) :
    rowCls img =
      (List.range img.h).map (fun y => decide (4 * img.w < 5 * rowMatches img y)) := by
  unfold rowCls
  exact List.map_congr_left (fun y _ => isBgRow_eval img y)

/-- Integer form of the column classification list. -/
lemma colCls_eval (img : Image) :
    colCls img =
      (List.range img.w).map (fun x => decide (4 * img.h < 5 * colMatches img x)) := by
  unfold colCls
  exact List.map_congr_left (fun x _ => isBgCol_eval img x)

/-- Fully integer form of the scanner, for evaluating concrete images. -/
lemma find_card_rows_eval (img : Image) :
    find_card_rows img =
      (if 0 < img.w ∧ 0 < img.h then
        some ((scanAux true 0
                ((List.range img.h).map
                  (fun y => decide (4 * img.w < 5 * rowMatches img y)))).1.length,
              (colScanAux true 0
                ((List.range img.w).map
                  (fun x => decide (4 * img.h < 5 * colMatches img x)))).length)
       else none) := by
  rw [find_card_rows, card_row_starts, col_starts, rowCls_eval, colCls_eval]

/-- The scanner state just before processing position `i`, when the walk over
`cls` began in state `prev`: background (`true`) at `i = 0`, otherwise the
classification of position `i - 1`. -/
def stateBefore (prev : Bool) (cls : List Bool) (i : Nat) : Bool :=
  if i = 0 then prev else cls.getD (i - 1) true

/-- Position `i` is a background→foreground transition. -/
def startTrans (prev : Bool) (cls : List Bool) (i : Nat) : Bool :=
  stateBefore prev cls i && !(cls.getD i true)

/-- Position `i` is a foreground→background transition. -/
def endTrans (prev : Bool) (cls : List Bool) (i : Nat) : Bool :=
  !(stateBefore prev cls i) && cls.getD i true

/-- The transition scan records exactly the transition positions, in
increasing order: starting the walk at position `y0` in state `prev`, the
recorded start (resp. end) positions are the positions `i` of the
classification list at which a background→foreground
(resp. foreground→background) transition occurs, shifted by `y0`. -/
lemma scanAux_eq_filter (cls : List Bool) : ∀ (prev : Bool) (y0 : Nat),
    scanAux prev y0 cls =
      (((List.range cls.length).filter (startTrans prev cls)).map (· + y0),
       ((List.range cls.length).filter (endTrans prev cls)).map (· + y0)) := by
  induction cls with
  | nil => intro prev y0; simp [scanAux]
  | cons c rest ih =>
    intro prev y0
    have hsb0 : ∀ i, stateBefore prev (c :: rest) (i + 1) = stateBefore c rest i := by
      intro i
      cases i with
      | zero => simp [stateBefore]
      | succ j => simp [stateBefore]
    have hst : ∀ i, startTrans prev (c :: rest) (i + 1) = startTrans c rest i := by
      intro i; simp [startTrans, hsb0]
    have het : ∀ i, endTrans prev (c :: rest) (i + 1) = endTrans c rest i := by
      intro i; simp [endTrans, hsb0]
    have h0s : startTrans prev (c :: rest) 0 = (prev && !c) := by
      simp [startTrans, stateBefore]
    have h0e : endTrans prev (c :: rest) 0 = (!prev && c) := by
      simp [endTrans, stateBefore]
    have hshift : ∀ (l : List Nat),
        (l.map Nat.succ).map (· + y0) = l.map (· + (y0 + 1)) := by
      intro l
      rw [List.map_map]
      exact List.map_congr_left (fun a _ => by simp [Function.comp]; omega)
    have hfs : ∀ (p : Nat → Bool) (l : List Nat),
        (l.map Nat.succ).filter p = (l.filter (fun i => p (i + 1))).map Nat.succ := by
      intro p l
      rw [List.filter_map]
      rfl
    have key : ∀ (t t' : Nat → Bool), (∀ i, t (i + 1) = t' i) →
        ((List.range (rest.length + 1)).filter t).map (· + y0) =
          (if t 0 then [y0] else []) ++
            ((List.range rest.length).filter t').map (· + (y0 + 1)) := by
      intro t t' h
      rw [List.range_succ_eq_map, List.filter_cons, hfs]
      have hc : (List.range rest.length).filter (fun i => t (i + 1)) =
          (List.range rest.length).filter t' :=
        List.filter_congr (fun i _ => by rw [h])
      rw [hc]
      cases ht : t 0 with
      | true => rw [if_pos rfl, List.map_cons, hshift]; simp
      | false => rw [if_neg (by simp), hshift]; simp
    simp only [scanAux]
    rw [ih c (y0 + 1)]
    rw [show (c :: rest).length = rest.length + 1 from rfl,
      key _ _ hst, key _ _ het, h0s, h0e]
    cases prev <;> cases c <;> simp

/-- The column scan is the start component of the full transition scan. -/
lemma colScanAux_eq_scanAux (cls : List Bool) : ∀ (prev : Bool) (y0 : Nat),
    colScanAux prev y0 cls = (scanAux prev y0 cls).1 := by
  induction cls with
  | nil => intro prev y0; simp [colScanAux, scanAux]
  | cons c rest ih =>
    intro prev y0
    simp [colScanAux, scanAux, ih]

/-- Well-formed alternating event lists: `Alt p lb s e` says that start
positions `s` and end positions `e` form a strictly alternating sequence of
events at positions `≥ lb`, the next expected event being a start when the
current scan state `p` is background (`true`) and an end when it is
foreground (`false`). -/
inductive Alt : Bool → Nat → List Nat → List Nat → Prop where
  | bgNil (lb : Nat) : Alt true lb [] []
  | fgNil (lb : Nat) : Alt false lb [] []
  | bgCons (lb a : Nat) (ss es : List Nat) (h1 : lb ≤ a)
      (h2 : Alt false (a + 1) ss es) : Alt true lb (a :: ss) es
  | fgCons (lb a : Nat) (ss es : List Nat) (h1 : lb ≤ a)
      (h2 : Alt true (a + 1) ss es) : Alt false lb ss (a :: es)

/-- A lower bound on event positions can be weakened. -/
lemma Alt.mono {p : Bool} {lb' : Nat} {s e : List Nat} (h : Alt p lb' s e)
    {lb : Nat} (hle : lb ≤ lb') : Alt p lb s e :=
  match h with
  | .bgNil _ => .bgNil lb
  | .fgNil _ => .fgNil lb
  | .bgCons _ a ss es h1 h2 => .bgCons lb a ss es (le_trans hle h1) h2
  | .fgCons _ a ss es h1 h2 => .fgCons lb a ss es (le_trans hle h1) h2

/-- The transition scan produces well-formed alternating event lists. -/
lemma scanAux_alt (cls : List Bool) : ∀ (prev : Bool) (y : Nat),
    Alt prev y (scanAux prev y cls).1 (scanAux prev y cls).2 := by
  induction cls with
  | nil =>
    intro prev y
    cases prev
    · exact .fgNil y
    · exact .bgNil y
  | cons c rest ih =>
    intro prev y
    cases prev <;> cases c <;> simp only [scanAux]
    · simpa using (ih false (y + 1)).mono (Nat.le_succ y)
    · simpa using Alt.fgCons y y _ _ (le_refl y) (ih true (y + 1))
    · simpa using Alt.bgCons y y _ _ (le_refl y) (ih false (y + 1))
    · simpa using (ih true (y + 1)).mono (Nat.le_succ y)

/-- The invariant package carried by a well-formed alternating event list:
position lower bounds, the length balance, and the strict interleaving of
start and end positions (orientation depending on the current state `p`). -/
structure AltP (p : Bool) (lb : Nat) (s e : List Nat) : Prop where
  sLB : ∀ a ∈ s, lb ≤ a
  eLB : ∀ a ∈ e, lb ≤ a
  bgLen : p = true → e.length ≤ s.length ∧ s.length ≤ e.length + 1
  bgSE : p = true → ∀ (i : Nat) (h1 : i < s.length) (h2 : i < e.length),
    s.get ⟨i, h1⟩ < e.get ⟨i, h2⟩
  bgES : p = true → ∀ (i : Nat) (h1 : i + 1 < s.length) (h2 : i < e.length),
    e.get ⟨i, h2⟩ < s.get ⟨i + 1, h1⟩
  fgLen : p = false → s.length ≤ e.length ∧ e.length ≤ s.length + 1
  fgES : p = false → ∀ (i : Nat) (h1 : i < s.length) (h2 : i < e.length),
    e.get ⟨i, h2⟩ < s.get ⟨i, h1⟩
  fgSE : p = false → ∀ (i : Nat) (h1 : i < s.length) (h2 : i + 1 < e.length),
    s.get ⟨i, h1⟩ < e.get ⟨i + 1, h2⟩

/-- Every well-formed alternating event list satisfies the invariant
package. -/
lemma alt_props {p : Bool} {lb : Nat} {s e : List Nat} (h : Alt p lb s e) :
    AltP p lb s e := by
  induction h with
  | bgNil lb =>
    refine ⟨by simp, by simp, fun _ => by simp, ?_, ?_, fun hf => (nomatch hf),
      fun hf => (nomatch hf), fun hf => (nomatch hf)⟩ <;>
      exact fun _ i h1 h2 => absurd h1 (by simp)
  | fgNil lb =>
    refine ⟨by simp, by simp, fun ht => (nomatch ht), fun ht => (nomatch ht),
      fun ht => (nomatch ht), fun _ => by simp, ?_, ?_⟩ <;>
      exact fun _ i h1 h2 => absurd h1 (by simp)
  | bgCons lb a ss es h1 h2 ih =>
    have l12 := ih.fgLen rfl
    have o1 := ih.fgES rfl
    have o2 := ih.fgSE rfl
    refine ⟨?_, ?_, fun _ => ?_, fun _ => ?_, fun _ => ?_, fun hf => (nomatch hf),
      fun hf => (nomatch hf), fun hf => (nomatch hf)⟩
    · intro x hx
      rcases List.mem_cons.mp hx with hx | hx
      · omega
      · have := ih.sLB x hx; omega
    · intro x hx
      have := ih.eLB x hx; omega
    · simp only [List.length_cons]; omega
    · intro i hi1 hi2
      cases i with
      | zero =>
        have hb := ih.eLB _ (List.get_mem es 0 hi2)
        show a < es.get ⟨0, hi2⟩
        omega
      | succ j =>
        have hj : j < ss.length := by simp only [List.length_cons] at hi1; omega
        exact o2 j hj hi2
    · intro i hi1 hi2
      have hi : i < ss.length := by simp only [List.length_cons] at hi1; omega
      exact o1 i hi hi2
  | fgCons lb a ss es h1 h2 ih =>
    have l12 := ih.bgLen rfl
    have o1 := ih.bgSE rfl
    have o2 := ih.bgES rfl
    refine ⟨?_, ?_, fun ht => (nomatch ht), fun ht => (nomatch ht), fun ht => (nomatch ht),
      fun _ => ?_, fun _ => ?_, fun _ => ?_⟩
    · intro x hx
      have := ih.sLB x hx; omega
    · intro x hx
      rcases List.mem_cons.mp hx with hx | hx
      · omega
      · have := ih.eLB x hx; omega
    · simp only [List.length_cons]; omega
    · intro i hi1 hi2
      cases i with
      | zero =>
        have hb := ih.sLB _ (List.get_mem ss 0 hi1)
        show a < ss.get ⟨0, hi1⟩
        omega
      | succ j =>
        have hj : j < es.length := by simp only [List.length_cons] at hi2; omega
        exact o2 j hi1 hj
    · intro i hi1 hi2
      have hi : i < es.length := by simp only [List.length_cons] at hi2; omega
      exact o1 i hi1 hi


/-- All recorded positions are below `y` plus the length of the scanned
classification list. -/
lemma scanAux_lt (cls : List Bool) (prev : Bool) (y : Nat) :
    (∀ a ∈ (scanAux prev y cls).1, a < y + cls.length) ∧
    (∀ a ∈ (scanAux prev y cls).2, a < y + cls.length) := by
  rw [scanAux_eq_filter]
  constructor <;>
  · intro a ha
    simp only [List.mem_map, List.mem_filter, List.mem_range] at ha
    obtain ⟨i, ⟨hi, _⟩, rfl⟩ := ha
    omega

/-- The last element of a nonempty list, with an irrelevant default. -/
lemma getLastD_cons (rest : List Bool) : ∀ (c x : Bool),
    (((c :: rest).getLast?).getD x) = ((rest.getLast?).getD c) := by
  induction rest with
  | nil => intro c x; rfl
  | cons d r' ih =>
    intro c x
    rw [List.getLast?_cons_cons, ih d x, ← ih d c]

/-- Length balance of the scan: when the walk starts in the background state,
the number of recorded starts equals the number of recorded ends exactly when
the final state (the last classification, or the initial state for an empty
list) is background, and exceeds it by one when the final state is
foreground; symmetrically when the walk starts in the foreground state. -/
lemma scanAux_balance (cls : List Bool) : ∀ (prev : Bool) (y : Nat),
    (prev = true →
      (scanAux prev y cls).1.length =
        (scanAux prev y cls).2.length +
          (if (cls.getLast?).getD true then 0 else 1)) ∧
    (prev = false →
      (scanAux prev y cls).2.length =
        (scanAux prev y cls).1.length +
          (if (cls.getLast?).getD false then 1 else 0)) := by
  induction cls with
  | nil =>
    intro prev y
    refine ⟨fun hp => ?_, fun hp => ?_⟩ <;> subst hp <;> simp [scanAux]
  | cons c rest ih =>
    intro prev y
    have hfin := getLastD_cons rest c
    obtain ⟨ihT, ihF⟩ := ih c (y + 1)
    refine ⟨fun hp => ?_, fun hp => ?_⟩
    · subst hp
      cases c
      · have h := ihF rfl
        rw [hfin]
        simp only [scanAux, Bool.not_false, Bool.and_self, Bool.not_true,
          Bool.and_false, if_pos rfl]
        cases hb : (rest.getLast?).getD false <;>
          simp [hb] at h ⊢ <;> omega
      · have h := ihT rfl
        rw [hfin]
        simp only [scanAux, Bool.not_true, Bool.and_false, Bool.false_and]
        cases hb : (rest.getLast?).getD true <;>
          simp [hb] at h ⊢ <;> omega
    · subst hp
      cases c
      · have h := ihF rfl
        rw [hfin]
        simp only [scanAux, Bool.not_false, Bool.false_and, Bool.and_false]
        cases hb : (rest.getLast?).getD false <;>
          simp [hb] at h ⊢ <;> omega
      · have h := ihT rfl
        rw [hfin]
        simp only [scanAux, Bool.not_true, Bool.and_false, Bool.not_false,
          Bool.and_self, if_pos rfl]
        cases hb : (rest.getLast?).getD true <;>
          simp [hb] at h ⊢ <;> omega

/-- Counting over `List.range` agrees with the cardinality of the
corresponding filtered `Finset.range`. -/
lemma countP_range_eq_card (n : Nat) (p : Nat → Prop) [DecidablePred p] :
    ((Finset.range n).filter p).card = (List.range n).countP (fun x => decide (p x)) := by
  induction n with
  | zero => simp
  | succ m ih =>
    rw [Finset.range_succ, Finset.filter_insert, List.range_succ,
      List.countP_append]
    by_cases hp : p m
    · rw [if_pos hp, Finset.card_insert_of_not_mem (by simp), ih]
      simp [hp]
    · rw [if_neg hp, ih]
      simp [hp]

/-- Reading an in-range position of a mapped range list. -/
lemma getD_map_range (f : Nat → Bool) (n i : Nat) (hi : i < n) (d : Bool) :
    (((List.range n).map f).getD i d) = f i := by
  have hlen : i < ((List.range n).map f).length := by simpa using hi
  rw [List.getD_eq_get _ _ hlen, List.get_map]
  congr 1
  simp

/-- A mapped range list whose entries are all `b` is `replicate`. -/
lemma map_range_replicate (f : Nat → Bool) (n : Nat) (b : Bool)
    (h : ∀ i, i < n → f i = b) :
    (List.range n).map f = List.replicate n b := by
  refine List.eq_replicate.mpr ⟨by simp, ?_⟩
  intro x hx
  obtain ⟨i, hi, rfl⟩ := List.mem_map.mp hx
  exact h i (List.mem_range.mp hi)

/-- Scanning an all-background suffix from the background state records
nothing. -/
lemma scanAux_replicate_true (k : Nat) : ∀ y : Nat,
    scanAux true y (List.replicate k true) = ([], []) := by
  induction k with
  | zero => intro y; rfl
  | succ j ih => intro y; simp [List.replicate_succ, scanAux, ih (y + 1)]

/-- Scanning an all-foreground suffix from the foreground state records
nothing. -/
lemma scanAux_replicate_false (k : Nat) : ∀ y : Nat,
    scanAux false y (List.replicate k false) = ([], []) := by
  induction k with
  | zero => intro y; rfl
  | succ j ih => intro y; simp [List.replicate_succ, scanAux, ih (y + 1)]

/-- Scanning a nonempty all-foreground suffix from the background state
records a single unclosed start at its first position. -/
lemma scanAux_true_replicate_false (k : Nat) (hk : 0 < k) (y : Nat) :
    scanAux true y (List.replicate k false) = ([y], []) := by
  obtain ⟨j, rfl⟩ : ∃ j, k = j + 1 := ⟨k - 1, by omega⟩
  simp [List.replicate_succ, scanAux, scanAux_replicate_false j (y + 1)]

/-- A range count whose predicate holds only at `0`. -/
lemma countP_range_single_zero (w : Nat) (hw : 0 < w) (p : Nat → Bool)
    (h0 : p 0 = true) (hs : ∀ i, i + 1 < w → p (i + 1) = false) :
    (List.range w).countP p = 1 := by
  obtain ⟨k, rfl⟩ : ∃ k, w = k + 1 := ⟨w - 1, by omega⟩
  rw [List.range_succ_eq_map, List.countP_cons, List.countP_map]
  rw [List.countP_eq_zero.mpr (by
    intro a ha
    have hak : a < k := List.mem_range.mp ha
    simp [Function.comp, hs a (by omega)])]
  simp [h0]

/-- The last entry of a mapped nonempty range list. -/
lemma getLastD_map_range (f : Nat → Bool) (n : Nat) (hn : 0 < n) (d : Bool) :
    ((((List.range n).map f).getLast?).getD d) = f (n - 1) := by
  obtain ⟨k, rfl⟩ : ∃ k, n = k + 1 := ⟨n - 1, by omega⟩
  rw [List.range_succ, List.map_append]
  simp


/-- Row match count as a Finset cardinality. -/
lemma rowMatches_eq_card (img : Image) (y : Nat) :
    rowMatches img y =
      ((Finset.range img.w).filter
        (fun x => rgbOf (img.pix y x) = bg_color img)).card := by
  rw [countP_range_eq_card]
  rfl

/-- Column match count as a Finset cardinality. -/
lemma colMatches_eq_card (img : Image) (x : Nat) :
    colMatches img x =
      ((Finset.range img.h).filter
        (fun y => rgbOf (img.pix y x) = bg_color img)).card := by
  rw [countP_range_eq_card]
  rfl

/-- C1: for every loaded image with positive dimensions, the background
sample is the RGB triple of the pixel at (0,0), each row's whiteness is the
number of pixels of the row whose R, G and B channels each exactly equal
that sample, divided by the width, and each column's whiteness is the
matching count over the column divided by the height. -/
theorem C1_whiteness_profile (img : Image) (hw : 0 < img.w) (hh : 0 < img.h) :
    bg_color img = ((img.pix 0 0).r, (img.pix 0 0).g, (img.pix 0 0).b) ∧
    (∀ y, y < img.h →
      row_whiteness img y =
        (((Finset.range img.w).filter (fun x =>
            (img.pix y x).r = (img.pix 0 0).r ∧
            (img.pix y x).g = (img.pix 0 0).g ∧
            (img.pix y x).b = (img.pix 0 0).b)).card : ℚ) / (img.w : ℚ)) ∧
    (∀ x, x < img.w →
      col_whiteness img x =
        (((Finset.range img.h).filter (fun y =>
            (img.pix y x).r = (img.pix 0 0).r ∧
            (img.pix y x).g = (img.pix 0 0).g ∧
            (img.pix y x).b = (img.pix 0 0).b)).card : ℚ) / (img.h : ℚ)) := by
  have hpred : ∀ y x : Nat,
      (rgbOf (img.pix y x) = bg_color img) ↔
        ((img.pix y x).r = (img.pix 0 0).r ∧
         (img.pix y x).g = (img.pix 0 0).g ∧
         (img.pix y x).b = (img.pix 0 0).b) := by
    intro y x
    simp [rgbOf, bg_color, Prod.ext_iff]
  refine ⟨rfl, ?_, ?_⟩
  · intro y _
    have hfq : (Finset.range img.w).filter
          (fun x => rgbOf (img.pix y x) = bg_color img) =
        (Finset.range img.w).filter (fun x =>
          (img.pix y x).r = (img.pix 0 0).r ∧
          (img.pix y x).g = (img.pix 0 0).g ∧
          (img.pix y x).b = (img.pix 0 0).b) :=
      Finset.filter_congr (fun x _ => hpred y x)
    rw [row_whiteness, rowMatches_eq_card, hfq]
  · intro x _
    have hfq : (Finset.range img.h).filter
          (fun y => rgbOf (img.pix y x) = bg_color img) =
        (Finset.range img.h).filter (fun y =>
          (img.pix y x).r = (img.pix 0 0).r ∧
          (img.pix y x).g = (img.pix 0 0).g ∧
          (img.pix y x).b = (img.pix 0 0).b) :=
      Finset.filter_congr (fun y _ => hpred y x)
    rw [col_whiteness, colMatches_eq_card, hfq]

/-- Witness for C1 at the concrete image `imgU`. -/
theorem C1_whiteness_profile_witness :
    0 < imgU.w ∧ 0 < imgU.h ∧
    (bg_color imgU = ((imgU.pix 0 0).r, (imgU.pix 0 0).g, (imgU.pix 0 0).b) ∧
    (∀ y, y < imgU.h →
      row_whiteness imgU y =
        (((Finset.range imgU.w).filter (fun x =>
            (imgU.pix y x).r = (imgU.pix 0 0).r ∧
            (imgU.pix y x).g = (imgU.pix 0 0).g ∧
            (imgU.pix y x).b = (imgU.pix 0 0).b)).card : ℚ) / (imgU.w : ℚ)) ∧
    (∀ x, x < imgU.w →
      col_whiteness imgU x =
        (((Finset.range imgU.h).filter (fun y =>
            (imgU.pix y x).r = (imgU.pix 0 0).r ∧
            (imgU.pix y x).g = (imgU.pix 0 0).g ∧
            (imgU.pix y x).b = (imgU.pix 0 0).b)).card : ℚ) / (imgU.h : ℚ))) :=
  ⟨by decide, by decide, C1_whiteness_profile imgU (by decide) (by decide)⟩

/-- A background→foreground transition of a thresholded profile, described
pointwise: the previous position (or the initial state at position 0) is
background and the current position is foreground. -/
lemma startTrans_map_range (f : Nat → ℚ) (n y : Nat) (hy : y < n) :
    startTrans true ((List.range n).map (fun i => decide (f i > (0.80 : ℚ)))) y =
      decide ((y = 0 ∨ (0.80 : ℚ) < f (y - 1)) ∧ ¬ ((0.80 : ℚ) < f y)) := by
  cases y with
  | zero =>
    simp only [startTrans, stateBefore, if_pos rfl, Bool.true_and]
    rw [getD_map_range _ _ _ hy]
    simp only [gt_iff_lt, Bool.decide_and, Bool.decide_or, decide_not]
    simp
  | succ j =>
    have hj : j < n := by omega
    simp only [startTrans, stateBefore, if_neg (Nat.succ_ne_zero j),
      Nat.succ_sub_one]
    rw [getD_map_range _ _ _ hy, getD_map_range _ _ _ hj]
    simp only [gt_iff_lt, Bool.decide_and, Bool.decide_or, decide_not]
    simp [Nat.succ_ne_zero]

/-- A foreground→background transition of a thresholded profile, described
pointwise. -/
lemma endTrans_map_range (f : Nat → ℚ) (n y : Nat) (hy : y < n) :
    endTrans true ((List.range n).map (fun i => decide (f i > (0.80 : ℚ)))) y =
      decide (¬ (y = 0 ∨ (0.80 : ℚ) < f (y - 1)) ∧ (0.80 : ℚ) < f y) := by
  cases y with
  | zero =>
    simp only [endTrans, stateBefore, if_pos rfl, Bool.not_true, Bool.false_and]
    simp
  | succ j =>
    have hj : j < n := by omega
    simp only [endTrans, stateBefore, if_neg (Nat.succ_ne_zero j),
      Nat.succ_sub_one]
    rw [getD_map_range _ _ _ hy, getD_map_range _ _ _ hj]
    simp only [gt_iff_lt, Bool.decide_and, Bool.decide_or, decide_not]
    simp [Nat.succ_ne_zero]

/-- Adding zero to every element of a list changes nothing. -/
lemma map_add_zero_id (l : List Nat) : l.map (· + 0) = l := by simp

/-- C2: with initial state background and a position classified background
iff its whiteness is strictly above 0.80, `card_row_starts` is exactly the
list of positions where the row state switches background→foreground,
`card_row_ends` exactly those where it switches foreground→background, and
the column scan records exactly the background→foreground switch positions
in `col_starts` (no end positions are produced). -/
theorem C2_transition_lists (img : Image) :
    card_row_starts img =
      (List.range img.h).filter (fun y =>
        decide ((y = 0 ∨ (0.80 : ℚ) < row_whiteness img (y - 1)) ∧
          ¬ ((0.80 : ℚ) < row_whiteness img y))) ∧
    card_row_ends img =
      (List.range img.h).filter (fun y =>
        decide (¬ (y = 0 ∨ (0.80 : ℚ) < row_whiteness img (y - 1)) ∧
          (0.80 : ℚ) < row_whiteness img y)) ∧
    col_starts img =
      (List.range img.w).filter (fun x =>
        decide ((x = 0 ∨ (0.80 : ℚ) < col_whiteness img (x - 1)) ∧
          ¬ ((0.80 : ℚ) < col_whiteness img x))) := by
  have hrow : rowCls img =
      (List.range img.h).map (fun i => decide (row_whiteness img i > (0.80 : ℚ))) := rfl
  have hcol : colCls img =
      (List.range img.w).map (fun i => decide (col_whiteness img i > (0.80 : ℚ))) := rfl
  have hrlen : (rowCls img).length = img.h := by simp [rowCls]
  have hclen : (colCls img).length = img.w := by simp [colCls]
  refine ⟨?_, ?_, ?_⟩
  · rw [card_row_starts, scanAux_eq_filter, hrlen]
    show ((List.range img.h).filter (startTrans true (rowCls img))).map (· + 0) = _
    rw [map_add_zero_id]
    exact List.filter_congr (fun y hy =>
      startTrans_map_range (row_whiteness img) img.h y (List.mem_range.mp hy))
  · rw [card_row_ends, scanAux_eq_filter, hrlen]
    show ((List.range img.h).filter (endTrans true (rowCls img))).map (· + 0) = _
    rw [map_add_zero_id]
    exact List.filter_congr (fun y hy =>
      endTrans_map_range (row_whiteness img) img.h y (List.mem_range.mp hy))
  · rw [col_starts, colScanAux_eq_scanAux, scanAux_eq_filter, hclen]
    show ((List.range img.w).filter (startTrans true (colCls img))).map (· + 0) = _
    rw [map_add_zero_id]
    exact List.filter_congr (fun x hx =>
      startTrans_map_range (col_whiteness img) img.w x (List.mem_range.mp hx))

/-- C3: for every successfully processed image, the scanner returns exactly
the pair (number of recorded row-run starts, number of recorded column-run
starts). -/
theorem C3_return_value (img : Image) (hw : 0 < img.w) (hh : 0 < img.h) :
    find_card_rows img =
      some ((card_row_starts img).length, (col_starts img).length) := by
  rw [find_card_rows, if_pos ⟨hw, hh⟩]

/-- Witness for C3 at the concrete image `imgBand`. -/
theorem C3_return_value_witness :
    0 < imgBand.w ∧ 0 < imgBand.h ∧
    find_card_rows imgBand =
      some ((card_row_starts imgBand).length, (col_starts imgBand).length) :=
  ⟨by decide, by decide, C3_return_value imgBand (by decide) (by decide)⟩

/-- C4: at every point during and after the transition scan — that is, after
any prefix of the row classifications has been processed — the number of
recorded ends never exceeds the number of recorded starts, and the counts
differ by at most one; the only possible imbalance is a single unclosed
trailing start. -/
theorem C4_balanced_runs (img : Image) (n : Nat) :
    (scanAux true 0 ((rowCls img).take n)).2.length ≤
      (scanAux true 0 ((rowCls img).take n)).1.length ∧
    (scanAux true 0 ((rowCls img).take n)).1.length ≤
      (scanAux true 0 ((rowCls img).take n)).2.length + 1 :=
  (alt_props (scanAux_alt ((rowCls img).take n) true 0)).bgLen rfl

/-- C5: on a degenerate image (zero width or zero height) the scanner fails
(the out-of-bounds background sample raises, embedded as `none`) instead of
returning counts. -/
theorem C5_degenerate_failure (img : Image) (hdeg : img.w = 0 ∨ img.h = 0) :
    find_card_rows img = none := by
  rw [find_card_rows, if_neg]
  rintro ⟨h1, h2⟩
  rcases hdeg with h | h <;> omega

/-- Witness for C5 at the concrete zero-width image `imgDeg`. -/
theorem C5_degenerate_failure_witness :
    (imgDeg.w = 0 ∨ imgDeg.h = 0) ∧ find_card_rows imgDeg = none :=
  ⟨Or.inl rfl, C5_degenerate_failure imgDeg (Or.inl rfl)⟩

/-- C6 as stated is false: on the single-pixel image `img1x1`, no pixel other
than the corner matches the corner sample (vacuously), yet the whole image is
one background row (whiteness 1.0), so the scan records no row run at all —
`card_row_starts` is empty rather than of length 1. -/
theorem C6_counterexample :
    (∀ x, x < img1x1.w → ∀ y, y < img1x1.h → ¬(x = 0 ∧ y = 0) →
      rgbOf (img1x1.pix y x) ≠ bg_color img1x1) ∧
    card_row_starts img1x1 = [] ∧ card_row_ends img1x1 = [] ∧
    (card_row_starts img1x1).length ≠ 1 := by
  have h : rowCls img1x1 = [true] := by rw [rowCls_eval]; decide
  refine ⟨by decide, ?_, ?_, ?_⟩
  · rw [card_row_starts, h]
    decide
  · rw [card_row_ends, h]
    decide
  · rw [card_row_starts, h]
    decide

/-- C6 (amended): for every image with positive dimensions and at least two
pixels in which no pixel other than the corner matches the corner sample,
whiteness is 0 for every row except the first, and the scan yields exactly
one unclosed row run spanning the rest of the image: `card_row_ends` is
empty and `card_row_starts` is `[0]`, unless the width is 1 (the first row
then consists of the corner pixel alone, is classified background, and the
run starts at 1 instead).  The 1×1 image is excluded: there the whole image
is background and no run is recorded. -/
theorem C6_amended (img : Image) (hw : 0 < img.w) (hh : 0 < img.h)
    (hsz : 2 ≤ img.w * img.h)
    (hnm : ∀ x, x < img.w → ∀ y, y < img.h → ¬(x = 0 ∧ y = 0) →
      rgbOf (img.pix y x) ≠ bg_color img) :
    (∀ y, 1 ≤ y → y < img.h → row_whiteness img y = 0) ∧
    card_row_starts img = [if img.w = 1 then 1 else 0] ∧
    card_row_ends img = [] := by
  have hmy : ∀ y, 1 ≤ y → y < img.h → rowMatches img y = 0 := by
    intro y h1 h2
    apply List.countP_eq_zero.mpr
    intro x hx
    have hxw : x < img.w := List.mem_range.mp hx
    have hne := hnm x hxw y h2 (by omega)
    simpa [matchesBg] using hne
  have hwhite : ∀ y, 1 ≤ y → y < img.h → row_whiteness img y = 0 := by
    intro y h1 h2
    rw [row_whiteness, hmy y h1 h2]
    simp
  have hm0 : rowMatches img 0 = 1 := by
    apply countP_range_single_zero img.w hw
    · simp [matchesBg, bg_color]
    · intro i hi
      have hne := hnm (i + 1) hi 0 hh (by omega)
      simpa [matchesBg] using hne
  have hcls0 : isBgRow img 0 = decide (img.w = 1) := by
    rw [isBgRow_eval, hm0]
    exact decide_eq_decide.mpr (by omega)
  have hclsy : ∀ y, 1 ≤ y → y < img.h → isBgRow img y = false := by
    intro y h1 h2
    rw [isBgRow_eval, hmy y h1 h2]
    exact decide_eq_false (by omega)
  obtain ⟨k, hk⟩ : ∃ k, img.h = k + 1 := ⟨img.h - 1, by omega⟩
  have hshape : rowCls img = isBgRow img 0 :: List.replicate k false := by
    rw [rowCls, hk, List.range_succ_eq_map, List.map_cons, List.map_map]
    congr 1
    exact map_range_replicate _ k false
      (fun i hi => hclsy (i + 1) (by omega) (by omega))
  refine ⟨hwhite, ?_, ?_⟩
  · by_cases hw1 : img.w = 1
    · have hk1 : 1 ≤ k := by
        rw [hw1] at hsz
        omega
      rw [card_row_starts, hshape, hcls0, if_pos hw1, decide_eq_true hw1]
      show (scanAux true 0 (true :: List.replicate k false)).1 = [1]
      simp only [scanAux, Bool.not_true, Bool.and_false, Bool.not_false,
        Bool.and_self, if_pos rfl]
      rw [scanAux_true_replicate_false k hk1 1]
      simp
    · rw [card_row_starts, hshape, hcls0, if_neg hw1, decide_eq_false hw1]
      show (scanAux true 0 (false :: List.replicate k false)).1 = [0]
      rw [show (false :: List.replicate k false) = List.replicate (k + 1) false from
        (List.replicate_succ false k).symm]
      rw [scanAux_true_replicate_false (k + 1) (Nat.succ_pos k) 0]
  · by_cases hw1 : img.w = 1
    · have hk1 : 1 ≤ k := by
        rw [hw1] at hsz
        omega
      rw [card_row_ends, hshape, hcls0, decide_eq_true hw1]
      show (scanAux true 0 (true :: List.replicate k false)).2 = []
      simp only [scanAux, Bool.not_true, Bool.and_false, Bool.not_false,
        Bool.and_self, if_pos rfl]
      rw [scanAux_true_replicate_false k hk1 1]
      simp
    · rw [card_row_ends, hshape, hcls0, decide_eq_false hw1]
      show (scanAux true 0 (false :: List.replicate k false)).2 = []
      rw [show (false :: List.replicate k false) = List.replicate (k + 1) false from
        (List.replicate_succ false k).symm]
      rw [scanAux_true_replicate_false (k + 1) (Nat.succ_pos k) 0]

/-- Witness for the amended C6 at the concrete image `imgCorner`. -/
theorem C6_amended_witness :
    0 < imgCorner.w ∧ 0 < imgCorner.h ∧ 2 ≤ imgCorner.w * imgCorner.h ∧
    ((∀ y, 1 ≤ y → y < imgCorner.h → row_whiteness imgCorner y = 0) ∧
     card_row_starts imgCorner = [if imgCorner.w = 1 then 1 else 0] ∧
     card_row_ends imgCorner = []) :=
  ⟨by decide, by decide, by decide,
    C6_amended imgCorner (by decide) (by decide) (by decide) (by decide)⟩

/-- C7: on an image that is entirely one uniform color equal to the corner
sample, every row and column whiteness is 1.0, no run boundary is recorded,
and the scanner returns (0, 0). -/
theorem C7_uniform_image (img : Image) (hw : 0 < img.w) (hh : 0 < img.h)
    (huni : ∀ x, x < img.w → ∀ y, y < img.h →
      rgbOf (img.pix y x) = bg_color img) :
    (∀ y, y < img.h → row_whiteness img y = 1) ∧
    (∀ x, x < img.w → col_whiteness img x = 1) ∧
    card_row_starts img = [] ∧ card_row_ends img = [] ∧
    col_starts img = [] ∧
    find_card_rows img = some (0, 0) := by
  have hmr : ∀ y, y < img.h → rowMatches img y = img.w := by
    intro y hy
    have hall : ∀ x ∈ List.range img.w, matchesBg img y x = true := by
      intro x hx
      simpa [matchesBg] using huni x (List.mem_range.mp hx) y hy
    rw [rowMatches, List.countP_eq_length.mpr hall, List.length_range]
  have hmc : ∀ x, x < img.w → colMatches img x = img.h := by
    intro x hx
    have hall : ∀ y ∈ List.range img.h, matchesBg img y x = true := by
      intro y hy
      simpa [matchesBg] using huni x hx y (List.mem_range.mp hy)
    rw [colMatches, List.countP_eq_length.mpr hall, List.length_range]
  have hrw1 : ∀ y, y < img.h → row_whiteness img y = 1 := by
    intro y hy
    rw [row_whiteness, hmr y hy]
    exact div_self (Nat.cast_ne_zero.mpr (by omega))
  have hcw1 : ∀ x, x < img.w → col_whiteness img x = 1 := by
    intro x hx
    rw [col_whiteness, hmc x hx]
    exact div_self (Nat.cast_ne_zero.mpr (by omega))
  have hrbg : ∀ y, y < img.h → isBgRow img y = true := by
    intro y hy
    rw [isBgRow, hrw1 y hy]
    exact decide_eq_true (by norm_num)
  have hcbg : ∀ x, x < img.w → isBgCol img x = true := by
    intro x hx
    rw [isBgCol, hcw1 x hx]
    exact decide_eq_true (by norm_num)
  have hrcls : rowCls img = List.replicate img.h true :=
    map_range_replicate _ _ _ (fun i hi => hrbg i hi)
  have hccls : colCls img = List.replicate img.w true :=
    map_range_replicate _ _ _ (fun i hi => hcbg i hi)
  have hs : card_row_starts img = [] := by
    rw [card_row_starts, hrcls, scanAux_replicate_true]
  have he : card_row_ends img = [] := by
    rw [card_row_ends, hrcls, scanAux_replicate_true]
  have hc : col_starts img = [] := by
    rw [col_starts, colScanAux_eq_scanAux, hccls, scanAux_replicate_true]
  refine ⟨hrw1, hcw1, hs, he, hc, ?_⟩
  rw [find_card_rows, if_pos ⟨hw, hh⟩, hs, hc]
  rfl

/-- Witness for C7 at the concrete uniform image `imgU`. -/
theorem C7_uniform_image_witness :
    0 < imgU.w ∧ 0 < imgU.h ∧
    ((∀ y, y < imgU.h → row_whiteness imgU y = 1) ∧
     (∀ x, x < imgU.w → col_whiteness imgU x = 1) ∧
     card_row_starts imgU = [] ∧ card_row_ends imgU = [] ∧
     col_starts imgU = [] ∧
     find_card_rows imgU = some (0, 0)) :=
  ⟨by decide, by decide,
    C7_uniform_image imgU (by decide) (by decide) (by decide)⟩

/-- C8: the scan is a deterministic function of the visible image contents —
two images of the same dimensions that agree on every in-range pixel produce
identical `card_row_starts`, `card_row_ends`, `col_starts` and scanner
return values, so repeated runs on the same pixel data coincide and no other
state can influence the result. -/
theorem C8_deterministic (img1 img2 : Image) (hw : img1.w = img2.w)
    (hh : img1.h = img2.h)
    (hp : ∀ x, x < img1.w → ∀ y, y < img1.h → img1.pix y x = img2.pix y x) :
    card_row_starts img1 = card_row_starts img2 ∧
    card_row_ends img1 = card_row_ends img2 ∧
    col_starts img1 = col_starts img2 ∧
    find_card_rows img1 = find_card_rows img2 := by
  have hbg : 0 < img1.w → 0 < img1.h → bg_color img1 = bg_color img2 := by
    intro h1 h2
    rw [bg_color, bg_color, hp 0 h1 0 h2]
  have hmB : ∀ y, y < img1.h → ∀ x, x < img1.w →
      matchesBg img1 y x = matchesBg img2 y x := by
    intro y hy x hx
    rw [matchesBg, matchesBg, hp x hx y hy, hbg (by omega) (by omega)]
  have hrcls : rowCls img1 = rowCls img2 := by
    rw [rowCls, rowCls, ← hh]
    refine List.map_congr_left (fun y hy => ?_)
    have hy' := List.mem_range.mp hy
    have hrM : rowMatches img1 y = rowMatches img2 y := by
      rw [rowMatches, rowMatches, ← hw]
      exact List.countP_congr (fun x hx => by rw [hmB y hy' x (List.mem_range.mp hx)])
    rw [isBgRow, isBgRow, row_whiteness, row_whiteness, hrM, hw]
  have hccls : colCls img1 = colCls img2 := by
    rw [colCls, colCls, ← hw]
    refine List.map_congr_left (fun x hx => ?_)
    have hx' := List.mem_range.mp hx
    have hcM : colMatches img1 x = colMatches img2 x := by
      rw [colMatches, colMatches, ← hh]
      exact List.countP_congr (fun y hy => by rw [hmB y (List.mem_range.mp hy) x hx'])
    rw [isBgCol, isBgCol, col_whiteness, col_whiteness, hcM, hh]
  have e1 : card_row_starts img1 = card_row_starts img2 := by
    rw [card_row_starts, card_row_starts, hrcls]
  have e2 : card_row_ends img1 = card_row_ends img2 := by
    rw [card_row_ends, card_row_ends, hrcls]
  have e3 : col_starts img1 = col_starts img2 := by
    rw [col_starts, col_starts, hccls]
  refine ⟨e1, e2, e3, ?_⟩
  rw [find_card_rows, find_card_rows, hw, hh, e1, e3]

/-- Witness for C8: `imgU` and `imgUAlt` agree on all visible pixels but are
given by different pixel functions. -/
theorem C8_deterministic_witness :
    imgU.w = imgUAlt.w ∧ imgU.h = imgUAlt.h ∧
    (card_row_starts imgU = card_row_starts imgUAlt ∧
     card_row_ends imgU = card_row_ends imgUAlt ∧
     col_starts imgU = col_starts imgUAlt ∧
     find_card_rows imgU = find_card_rows imgUAlt) :=
  ⟨by decide, by decide,
    C8_deterministic imgU imgUAlt (by decide) (by decide) (by decide)⟩

/-- C9: the driver walks the fixed ordered category list, runs the scanner
once per category on the image at `/tmp/<name>_cards.png`, and records for
each category exactly the product rows × cols of the pair the scanner
returned for that category's own image. -/
theorem C9_driver (env : String → Image) (f : String → Nat × Nat)
    (h : ∀ name ∈ categories, find_card_rows (env (pathFor name)) = some (f name)) :
    runDriver env =
      some (categories.map (fun name => (name, (f name).1 * (f name).2))) := by
  have ha := h "action" (by simp [categories])
  have hm := h "money" (by simp [categories])
  have hpr := h "property" (by simp [categories])
  have hwl := h "wild" (by simp [categories])
  simp [runDriver, categories, List.foldlM, ha, hm, hpr, hwl]

/-- Witness for C9 with every category path mapped to the uniform image
`imgU`, whose scan returns (0, 0). -/
theorem C9_driver_witness :
    (∀ name ∈ categories,
      find_card_rows ((fun _ => imgU) (pathFor name)) = some (0, 0)) ∧
    runDriver (fun _ => imgU) =
      some (categories.map (fun name => (name, 0))) := by
  have hscan : find_card_rows imgU = some (0, 0) := by
    rw [find_card_rows_eval]
    decide
  exact ⟨fun name _ => hscan,
    C9_driver (fun _ => imgU) (fun _ => (0, 0)) (fun name _ => hscan)⟩

/-- C10: after the row scan, the recorded start and end positions are
strictly increasing sequences inside [0, H), they strictly interleave
starting with a start (`starts[i] < ends[i] < starts[i+1]`, so every closed
run has positive height), the counts differ by at most one, and the number
of starts exceeds the number of ends — the condition under which the source
prints the trailing run as "unclosed" — exactly when the last row is
classified foreground. -/
theorem C10_run_structure (img : Image) (hh : 0 < img.h) :
    List.Chain' (· < ·) (card_row_starts img) ∧
    List.Chain' (· < ·) (card_row_ends img) ∧
    (∀ a ∈ card_row_starts img, a < img.h) ∧
    (∀ a ∈ card_row_ends img, a < img.h) ∧
    (∀ (i : Nat) (h1 : i < (card_row_starts img).length)
       (h2 : i < (card_row_ends img).length),
      (card_row_starts img).get ⟨i, h1⟩ < (card_row_ends img).get ⟨i, h2⟩) ∧
    (∀ (i : Nat) (h1 : i + 1 < (card_row_starts img).length)
       (h2 : i < (card_row_ends img).length),
      (card_row_ends img).get ⟨i, h2⟩ < (card_row_starts img).get ⟨i + 1, h1⟩) ∧
    ((card_row_ends img).length ≤ (card_row_starts img).length ∧
      (card_row_starts img).length ≤ (card_row_ends img).length + 1) ∧
    ((card_row_ends img).length < (card_row_starts img).length ↔
      isBgRow img (img.h - 1) = false) := by
  have halt := alt_props (scanAux_alt (rowCls img) true 0)
  have hlen : (card_row_ends img).length ≤ (card_row_starts img).length ∧
      (card_row_starts img).length ≤ (card_row_ends img).length + 1 :=
    halt.bgLen rfl
  have hse : ∀ (i : Nat) (h1 : i < (card_row_starts img).length)
      (h2 : i < (card_row_ends img).length),
      (card_row_starts img).get ⟨i, h1⟩ < (card_row_ends img).get ⟨i, h2⟩ :=
    halt.bgSE rfl
  have hes : ∀ (i : Nat) (h1 : i + 1 < (card_row_starts img).length)
      (h2 : i < (card_row_ends img).length),
      (card_row_ends img).get ⟨i, h2⟩ < (card_row_starts img).get ⟨i + 1, h1⟩ :=
    halt.bgES rfl
  have hclslen : (rowCls img).length = img.h := by simp [rowCls]
  have hub1 : ∀ a ∈ card_row_starts img, a < img.h := by
    intro a ha
    have h1 : a < 0 + (rowCls img).length :=
      (scanAux_lt (rowCls img) true 0).1 a ha
    omega
  have hub2 : ∀ a ∈ card_row_ends img, a < img.h := by
    intro a ha
    have h1 : a < 0 + (rowCls img).length :=
      (scanAux_lt (rowCls img) true 0).2 a ha
    omega
  have hchs : List.Chain' (· < ·) (card_row_starts img) := by
    rw [List.chain'_iff_get]
    intro i hi
    have h1 : i + 1 < (card_row_starts img).length := by omega
    have h2 : i < (card_row_ends img).length := by omega
    exact lt_trans (hse i (by omega) h2) (hes i h1 h2)
  have hche : List.Chain' (· < ·) (card_row_ends img) := by
    rw [List.chain'_iff_get]
    intro i hi
    have h2 : i + 1 < (card_row_ends img).length := by omega
    have h1 : i + 1 < (card_row_starts img).length := by omega
    exact lt_trans (hes i h1 (by omega)) (hse (i + 1) h1 h2)
  have hbal : (card_row_starts img).length =
      (card_row_ends img).length +
        (if ((rowCls img).getLast?).getD true then 0 else 1) :=
    (scanAux_balance (rowCls img) true 0).1 rfl
  have hfin : (((rowCls img).getLast?).getD true) = isBgRow img (img.h - 1) :=
    getLastD_map_range (isBgRow img) img.h hh true
  rw [hfin] at hbal
  refine ⟨hchs, hche, hub1, hub2, hse, hes, hlen, ?_⟩
  cases hfb : isBgRow img (img.h - 1)
  · rw [hfb] at hbal
    simp only [Bool.false_eq_true, if_false] at hbal
    simp only [eq_self_iff_true, iff_true]
    omega
  · rw [hfb] at hbal
    simp only [if_true] at hbal
    constructor
    · intro hlt2
      omega
    · intro htf
      exact absurd htf (by simp)

/-- Witness for C10 at the concrete image `imgBand`. -/
theorem C10_run_structure_witness :
    0 < imgBand.h ∧
    (List.Chain' (· < ·) (card_row_starts imgBand) ∧
     List.Chain' (· < ·) (card_row_ends imgBand) ∧
     (∀ a ∈ card_row_starts imgBand, a < imgBand.h) ∧
     (∀ a ∈ card_row_ends imgBand, a < imgBand.h) ∧
     (∀ (i : Nat) (h1 : i < (card_row_starts imgBand).length)
        (h2 : i < (card_row_ends imgBand).length),
       (card_row_starts imgBand).get ⟨i, h1⟩ <
         (card_row_ends imgBand).get ⟨i, h2⟩) ∧
     (∀ (i : Nat) (h1 : i + 1 < (card_row_starts imgBand).length)
        (h2 : i < (card_row_ends imgBand).length),
       (card_row_ends imgBand).get ⟨i, h2⟩ <
         (card_row_starts imgBand).get ⟨i + 1, h1⟩) ∧
     ((card_row_ends imgBand).length ≤ (card_row_starts imgBand).length ∧
       (card_row_starts imgBand).length ≤ (card_row_ends imgBand).length + 1) ∧
     ((card_row_ends imgBand).length < (card_row_starts imgBand).length ↔
       isBgRow imgBand (imgBand.h - 1) = false)) :=
  ⟨by decide, C10_run_structure imgBand (by decide)⟩
